import Mathlib

/-!
Verification of the retrieval, caching, chunking and embedding core of the
Document-Compliance-Auditor repository.

The Python modules `retrieval.py`, `cache_manager.py`, `document_processor.py`
and `embeddings.py` are shallowly embedded below.  Python dictionaries are
modelled as insertion-ordered association lists (`List (κ × ν)`), which is
faithful to CPython's dictionaries: lookups find the unique binding of a key,
assignment to an existing key updates it in place keeping its position, and
assignment to a fresh key appends at the end.  Python floats are modelled as
rationals (`ℚ`); the ranking arithmetic of `_merge_results` involves only
sums, products and divisions, so this preserves all comparisons that matter
to the claims.  Python object identity on `langchain` `Document` objects is
modelled by structural equality on a `Document` structure that carries an
`oid` field, so distinct objects can be represented even when their payloads
coincide.  External collaborators (the vector store, the embedding provider,
the text splitter, the text extractor) are parameters of the embedded
functions.
-/

set_option autoImplicit false

namespace DCA

/-! ## Ordered-dictionary primitives (CPython `dict` semantics) -/

/-- Assignment `d[k] = v` on an insertion-ordered dictionary: update in place
if the key is present (keeping its position), otherwise append at the end. -/
def dictSet {κ ν : Type} [DecidableEq κ] : List (κ × ν) → κ → ν → List (κ × ν)
  | [], k, v => [(k, v)]
  | p :: ps, k, v => if p.1 = k then (k, v) :: ps else p :: dictSet ps k v

/-- `d.update(u)`: assign every binding of `u`, in order, into `d`. -/
def dictUpdate {κ ν : Type} [DecidableEq κ] (m u : List (κ × ν)) :
    List (κ × ν) :=
  u.foldl (fun acc p => dictSet acc p.1 p.2) m

/-- `d.get(k, 0)`-style lookup with a default. -/
def lookupD {κ ν : Type} [DecidableEq κ] (m : List (κ × ν)) (k : κ) (d : ν) : ν :=
  (m.lookup k).getD d

/-! ## Data model -/

/-- Metadata values: the Python code stores strings (`source`, `source_file`)
and integers (`chunk_index`, `total_chunks`) in chunk metadata. -/
inductive MValue : Type where
  | vStr (s : String)
  | vNat (n : Nat)
deriving DecidableEq

/-- A `langchain` `Document`: page content plus a metadata dictionary.  The
`oid` field stands for CPython object identity (`id(doc)`), letting the model
distinguish objects whose payloads happen to coincide. -/
structure Document : Type where
  oid : Nat
  pageContent : String
  metadata : List (String × MValue)
deriving DecidableEq

/-- `doc.metadata.get("source", "Unknown")` from
`retrieve_relevant_regulations`. -/
def metaSource (d : Document) : MValue :=
  (d.metadata.lookup "source").getD (MValue.vStr "Unknown")

/-- Python truthiness test `not text or not text.strip()`: true exactly when
every character of the string is whitespace (in particular for `""`). -/
def pyBlank (s : String) : Bool :=
  s.toList.all (fun c => c.isWhitespace)

/-! ## `retrieval.py` — `RetrievalSystem`

The vector store dependency (`vector_db.search_with_scores`) is an oracle
mapping a query, a requested candidate count and an optional metadata filter
to a scored document list. -/

/-- The external vector store: `search_with_scores(query, k, filter_dict)`. -/
structure RetrievalSystem : Type where
  store : String → Nat → Option (List (String × MValue)) → List (Document × ℚ)

/-- `RetrievalSystem.semantic_search`: empty/whitespace queries short-circuit
to `[]`; otherwise request `k * 2` scored candidates from the vector store,
keep those whose score is at least `min_score`, and truncate to `k`. -/
def semantic_search (R : RetrievalSystem) (query : String) (k : Nat)
    (min_score : ℚ) (filter_dict : Option (List (String × MValue))) :
    List Document :=
  if pyBlank query then []
  else
    (((R.store query (k * 2) filter_dict).filter
        (fun p => min_score ≤ p.2)).map Prod.fst).take k

/-- `RetrievalSystem._keyword_search`: the code extracts word tokens from the
lowercased query with `re.findall` but never uses them, and returns a
semantic search with `k = 10` and default `min_score = 0.0`.  The token
extraction is modelled (simplified to whitespace splitting, which is
irrelevant since the value is discarded exactly as in the code). -/
def keyword_search (R : RetrievalSystem) (query : String)
    (filter_dict : Option (List (String × MValue))) : List Document :=
  let _keywords := (query.toLower.splitOn " ").filter (fun w => w ≠ "")
  semantic_search R query 10 0 filter_dict

/-- One `doc_scores[doc_id] = doc_scores.get(doc_id, 0) + x` step of
`_merge_results`, keyed by document identity. -/
def addScore (m : List (Document × ℚ)) (d : Document) (x : ℚ) :
    List (Document × ℚ) :=
  dictSet m d (lookupD m d 0 + x)

/-- The `for idx, doc in enumerate(semantic_results)` loop of
`_merge_results`: each occurrence receives the rank term
`semantic_weight * (1 - idx / n)` and then the flat bonus `semantic_weight`.
`n` is the length of the whole semantic list and `i` the index of the head of
`l` within it. -/
def semPass (sw : ℚ) (n : Nat) : Nat → List Document → List (Document × ℚ) →
    List (Document × ℚ)
  | _, [], m => m
  | i, d :: ds, m =>
      semPass sw n (i + 1) ds (addScore (addScore m d (sw * (1 - (i : ℚ) / (n : ℚ)))) d sw)

/-- The `for idx, doc in enumerate(keyword_results)` loop of
`_merge_results`: each occurrence receives only the rank term
`keyword_weight * (1 - idx / n)` — no flat bonus. -/
def kwPass (kw : ℚ) (n : Nat) : Nat → List Document → List (Document × ℚ) →
    List (Document × ℚ)
  | _, [], m => m
  | i, d :: ds, m =>
      kwPass kw n (i + 1) ds (addScore m d (kw * (1 - (i : ℚ) / (n : ℚ))))

/-- The `doc_map` dictionary of `_merge_results`: keyed by object identity,
assignment of an already-present key is a no-op on order, so the values read
back in insertion order are the distinct documents in first-seen order. -/
def docMapAux (l acc : List Document) : List Document :=
  l.foldl (fun a d => if d ∈ a then a else a ++ [d]) acc

/-- Distinct documents of `l` in first-seen order. -/
def docMap (l : List Document) : List Document :=
  docMapAux l []

/-- Stable descending insertion by score: an element is placed before the
first element with a strictly smaller score, so earlier elements win ties.
This realises CPython's stable `sorted(..., reverse=True)`. -/
def insertDesc (score : Document → ℚ) (d : Document) :
    List Document → List Document
  | [] => [d]
  | x :: xs => if score x ≤ score d then d :: x :: xs else x :: insertDesc score d xs

/-- Stable sort, descending by score, ties in first-seen order. -/
def sortDesc (score : Document → ℚ) (l : List Document) : List Document :=
  l.foldr (insertDesc score) []

/-- `RetrievalSystem._merge_results`: accumulate scores over both result
lists, then sort the distinct documents by total score descending (stable, so
ties keep first-seen order). -/
def merge_results (semantic_results keyword_results : List Document)
    (semantic_weight keyword_weight : ℚ) : List Document :=
  let scores :=
    kwPass keyword_weight keyword_results.length 0 keyword_results
      (semPass semantic_weight semantic_results.length 0 semantic_results [])
  sortDesc (fun d => lookupD scores d 0) (docMap (semantic_results ++ keyword_results))

/-- `RetrievalSystem.hybrid_search`: semantic search over-fetched to `k * 2`,
keyword search, rank fusion, truncation to `k`. -/
def hybrid_search (R : RetrievalSystem) (query : String) (k : Nat)
    (semantic_weight keyword_weight : ℚ)
    (filter_dict : Option (List (String × MValue))) : List Document :=
  let semantic_results := semantic_search R query (k * 2) 0 filter_dict
  let keyword_results := keyword_search R query filter_dict
  (merge_results semantic_results keyword_results semantic_weight keyword_weight).take k

/-- The source-deduplication loop of `retrieve_relevant_regulations`: walk the
ranked results keeping the first chunk of each source label. -/
def dedupBySource : List Document → List MValue → List (MValue × String)
  | [], _ => []
  | d :: ds, seen =>
      let src := metaSource d
      if src ∈ seen then dedupBySource ds seen
      else (src, d.pageContent) :: dedupBySource ds (src :: seen)

/-- `RetrievalSystem.retrieve_relevant_regulations`: blank documents
short-circuit to `[]`; the query is the first 500 characters; hybrid search
(default weights 0.7 / 0.3) or semantic search; results are deduplicated by
source label. -/
def retrieve_relevant_regulations (R : RetrievalSystem) (user_document : String)
    (k : Nat) (use_hybrid : Bool) : List (MValue × String) :=
  if pyBlank user_document then []
  else
    let query := if 500 < user_document.length then user_document.take 500 else user_document
    let results :=
      if use_hybrid then hybrid_search R query k (7/10) (3/10) none
      else semantic_search R query k 0 none
    dedupBySource results []

/-! ## `document_processor.py` — `DocumentProcessor`

The `RecursiveCharacterTextSplitter` is an external `langchain` collaborator,
modelled as a `split : String → List String` parameter.  `os.path.basename`
is modelled on `/`-separated paths. -/

/-- `os.path.basename`. -/
def basename (p : String) : String :=
  (p.splitOn "/").getLastD p

/-- `DocumentProcessor.process_text`: blank text yields no chunks, otherwise
each chunk carries generated metadata (`source`, `chunk_index`,
`total_chunks`) into which caller metadata is merged with `dict.update`. -/
def process_text (split : String → List String) (text : String)
    (source_label : String) (metadata : Option (List (String × MValue))) :
    List Document :=
  if pyBlank text then []
  else
    let chunks := split text
    chunks.enum.map (fun p =>
      let doc_metadata :=
        [("source", MValue.vStr source_label),
         ("chunk_index", MValue.vNat p.1),
         ("total_chunks", MValue.vNat chunks.length)]
      { oid := p.1
        pageContent := p.2
        metadata := dictUpdate doc_metadata (metadata.getD []) })

/-- `DocumentProcessor.process_file`: text extraction failure or blank text
yields no chunks; the source label defaults to the file's base name; each
chunk carries generated metadata (`source`, `source_file`, `chunk_index`,
`total_chunks`) merged with caller metadata via `dict.update`. -/
def process_file (split : String → List String)
    (extract : String → Option String) (file_path : String)
    (source_label : Option String)
    (metadata : Option (List (String × MValue))) : List Document :=
  match extract file_path with
  | none => []
  | some text =>
    if pyBlank text then []
    else
      let label := source_label.getD (basename file_path)
      let chunks := split text
      chunks.enum.map (fun p =>
        let doc_metadata :=
          [("source", MValue.vStr label),
           ("source_file", MValue.vStr file_path),
           ("chunk_index", MValue.vNat p.1),
           ("total_chunks", MValue.vNat chunks.length)]
        { oid := p.1
          pageContent := p.2
          metadata := dictUpdate doc_metadata (metadata.getD []) })

/-! ## `cache_manager.py` — `CacheManager`

Each namespace is an insertion-ordered dictionary bounded by `max_size`.  The
Python code derives keys with `hashlib.md5(text).hexdigest()`; the digest is
modelled as an abstract key function `genKey : String → String` where one is
needed, and the bounded-insertion logic operates on keys.  `next(iter(d))` on
an empty dictionary raises `StopIteration`, modelled by `Option`. -/

/-- The shared body of `set_embedding` / `set_search_result`: if the
namespace is at (or beyond) capacity, evict the oldest entry first — raising
(`none`) if the namespace is empty — then assign the key. -/
def nsSet {ν : Type} (max_size : Nat) (c : List (String × ν)) (key : String)
    (v : ν) : Option (List (String × ν)) :=
  if max_size ≤ c.length then
    match c with
    | [] => none
    | _ :: rest => some (dictSet rest key v)
  else
    some (dictSet c key v)

/-- A sequence of bounded insertions into one namespace. -/
def nsSetAll {ν : Type} (max_size : Nat) (ops : List (String × ν))
    (c : List (String × ν)) : Option (List (String × ν)) :=
  ops.foldlM (fun acc p => nsSet max_size acc p.1 p.2) c

/-- An embedding vector: a list of rationals (Python floats). -/
abbrev Vec := List ℚ

/-- `CacheManager`: three namespaces sharing one `max_size` bound. -/
structure CacheManager : Type where
  max_size : Nat
  embeddingCache : List (String × Vec)
  searchCache : List (String × List Document)
  regulationCache : List (String × String)
deriving DecidableEq

/-- `CacheManager.set_embedding` (keys derived by `genKey`, the model of the
md5 digest). -/
def set_embedding (genKey : String → String) (cm : CacheManager)
    (text : String) (embedding : Vec) : Option CacheManager :=
  (nsSet cm.max_size cm.embeddingCache (genKey text) embedding).map
    (fun ec => { cm with embeddingCache := ec })

/-- `CacheManager.set_search_result`. -/
def set_search_result (genKey : String → String) (cm : CacheManager)
    (query : String) (results : List Document) : Option CacheManager :=
  (nsSet cm.max_size cm.searchCache (genKey query) results).map
    (fun sc => { cm with searchCache := sc })

/-- `CacheManager.clear_cache`: clears the named namespace, or all three for
any other argument (including `None` and unrecognized names). -/
def clear_cache (cm : CacheManager) (cache_type : Option String) : CacheManager :=
  if cache_type = some "embedding" then { cm with embeddingCache := [] }
  else if cache_type = some "search" then { cm with searchCache := [] }
  else if cache_type = some "regulation" then { cm with regulationCache := [] }
  else { cm with embeddingCache := [], searchCache := [], regulationCache := [] }

/-! ## `embeddings.py` — `EmbeddingGenerator`

The external provider is modelled by a per-text deterministic embedding
function together with failure predicates: `embed_query` on a single text
(`failQ` tells whether the call raises), and `embed_documents` on a batch
(`failD` tells whether the call raises).  On success `embed_documents`
returns one vector per input text. -/

/-- The zero-vector fallback `[0.0] * 768`. -/
def zeroVec : Vec := List.replicate 768 0

/-- Result of `generate_embedding`, instrumented with what happened: the
returned vector, the embedding cache afterwards, whether the external
provider was invoked, and whether the cache was read or written. -/
structure EmbedOut : Type where
  vec : Vec
  cache : List (String × Vec)
  providerCalled : Bool
  cacheRead : Bool
  cacheWritten : Bool
deriving DecidableEq

/-- `EmbeddingGenerator.generate_embedding`: blank text returns the zero
vector at once; otherwise an exact-string cache lookup (when `use_cache`),
then the external call, whose failure yields the zero vector; successful
results are cached when `use_cache`. -/
def generate_embedding (embedQ : String → Vec) (failQ : String → Bool)
    (cache : List (String × Vec)) (text : String) (use_cache : Bool) :
    EmbedOut :=
  if pyBlank text then
    { vec := zeroVec, cache := cache, providerCalled := false,
      cacheRead := false, cacheWritten := false }
  else if use_cache && (cache.lookup text).isSome then
    { vec := (cache.lookup text).getD zeroVec, cache := cache,
      providerCalled := false, cacheRead := true, cacheWritten := false }
  else if failQ text then
    { vec := zeroVec, cache := cache, providerCalled := true,
      cacheRead := use_cache, cacheWritten := false }
  else
    { vec := embedQ text,
      cache := if use_cache then dictSet cache text (embedQ text) else cache,
      providerCalled := true, cacheRead := use_cache, cacheWritten := use_cache }

/-- The cached/uncached partition of one sub-batch (the first loop of the
batch body): cached vectors, uncached texts and uncached indices, each in
batch order.  The input carries `enumerate` indices. -/
def splitCached (use_cache : Bool) (cache : List (String × Vec)) :
    List (Nat × String) → List Vec × List String × List Nat
  | [] => ([], [], [])
  | (i, t) :: rest =>
      let r := splitCached use_cache cache rest
      if use_cache && (cache.lookup t).isSome then
        ((cache.lookup t).getD zeroVec :: r.1, r.2.1, r.2.2)
      else
        (r.1, t :: r.2.1, i :: r.2.2)

/-- The reconstruction loop of the batch body: for each index of the batch,
take the next vector from the freshly generated embeddings when the index was
uncached, and the next cached vector otherwise.  `rem` counts the remaining
indices; heads are total with the zero-vector default (in the model the
generated list always has exactly one vector per uncached text, so the
default is unreachable). -/
def recon (uidx : List Nat) : Nat → Nat → List Vec → List Vec → List Vec
  | _, 0, _, _ => []
  | i, rem + 1, embs, cachedVals =>
      if i ∈ uidx then
        embs.headD zeroVec :: recon uidx (i + 1) rem embs.tail cachedVals
      else
        cachedVals.headD zeroVec :: recon uidx (i + 1) rem embs cachedVals.tail

/-- The cached vectors of one sub-batch (`cached` in the code). -/
def cachedOf (use_cache : Bool) (cache : List (String × Vec))
    (batch : List String) : List Vec :=
  (splitCached use_cache cache batch.enum).1

/-- The uncached texts of one sub-batch (`uncached` in the code). -/
def uncachedOf (use_cache : Bool) (cache : List (String × Vec))
    (batch : List String) : List String :=
  (splitCached use_cache cache batch.enum).2.1

/-- The uncached indices of one sub-batch (`uncached_indices` in the code). -/
def uidxOf (use_cache : Bool) (cache : List (String × Vec))
    (batch : List String) : List Nat :=
  (splitCached use_cache cache batch.enum).2.2

/-- The `embed_documents` call of the batch body: nothing to do when every
text was cached; on failure every uncached text falls back to the zero
vector and the cache is untouched; on success each uncached text gets its
vector, and the cache is filled when `use_cache`. -/
def batchStep (embedD : String → Vec) (failD : List String → Bool)
    (use_cache : Bool) (cache : List (String × Vec)) (batch : List String) :
    List Vec × List (String × Vec) :=
  if (uncachedOf use_cache cache batch).isEmpty then ([], cache)
  else if failD (uncachedOf use_cache cache batch) then
    (List.replicate (uncachedOf use_cache cache batch).length zeroVec, cache)
  else
    ((uncachedOf use_cache cache batch).map embedD,
     if use_cache then
       ((uncachedOf use_cache cache batch).map (fun t => (t, embedD t))).foldl
         (fun c p => dictSet c p.1 p.2) cache
     else cache)

/-- One iteration of the batch loop of `generate_embeddings_batch`: partition
against the cache, call `embed_documents` on the uncached texts, then
reconstruct the batch results in order. -/
def processOneBatch (embedD : String → Vec) (failD : List String → Bool)
    (use_cache : Bool) (cache : List (String × Vec)) (batch : List String) :
    List Vec × List (String × Vec) :=
  (recon (uidxOf use_cache cache batch) 0 batch.length
    (batchStep embedD failD use_cache cache batch).1
    (cachedOf use_cache cache batch),
   (batchStep embedD failD use_cache cache batch).2)

/-- The batch loop: process `batch_size`-sized slices of the remaining texts.
`fuel` is an upper bound on the number of texts, enough for the recursion
since each step consumes at least one text when `batch_size ≥ 1`. -/
def goBatches (embedD : String → Vec) (failD : List String → Bool)
    (use_cache : Bool) (batch_size : Nat) :
    Nat → List String → List (String × Vec) → List Vec × List (String × Vec)
  | _, [], cache => ([], cache)
  | 0, _ :: _, cache => ([], cache)
  | fuel + 1, t :: ts, cache =>
      let step := processOneBatch embedD failD use_cache cache ((t :: ts).take batch_size)
      let rest := goBatches embedD failD use_cache batch_size fuel ((t :: ts).drop batch_size) step.2
      (step.1 ++ rest.1, rest.2)

/-- `EmbeddingGenerator.generate_embeddings_batch`: `range(0, n, 0)` raises in
Python, modelled by `none` for `batch_size = 0`; otherwise the batch loop
runs over the input slices. -/
def generate_embeddings_batch (embedD : String → Vec)
    (failD : List String → Bool) (use_cache : Bool) (batch_size : Nat)
    (texts : List String) (cache : List (String × Vec)) :
    Option (List Vec × List (String × Vec)) :=
  if batch_size = 0 then none
  else some (goBatches embedD failD use_cache batch_size texts.length texts cache)

/-! ## Dictionary lemmas -/

theorem lookup_cons_self {κ ν : Type} [DecidableEq κ] (k : κ) (v : ν)
    (ps : List (κ × ν)) : List.lookup k ((k, v) :: ps) = some v := by
  simp [List.lookup]

theorem lookup_cons_ne {κ ν : Type} [DecidableEq κ] (k : κ) (p : κ × ν)
    (ps : List (κ × ν)) (h : k ≠ p.1) :
    List.lookup k (p :: ps) = List.lookup k ps := by
  obtain ⟨a, b⟩ := p
  simp only [List.lookup]
  rw [beq_eq_false_iff_ne.mpr h]

theorem lookup_dictSet_self {κ ν : Type} [DecidableEq κ] (m : List (κ × ν))
    (k : κ) (v : ν) : (dictSet m k v).lookup k = some v := by
  induction m with
  | nil => exact lookup_cons_self k v []
  | cons p ps ih =>
      by_cases h : p.1 = k
      · simp only [dictSet, if_pos h]
        exact lookup_cons_self k v ps
      · simp only [dictSet, if_neg h]
        rw [lookup_cons_ne _ _ _ (Ne.symm h), ih]

theorem lookup_dictSet_ne {κ ν : Type} [DecidableEq κ] (m : List (κ × ν))
    (k k' : κ) (v : ν) (h : k' ≠ k) :
    (dictSet m k v).lookup k' = m.lookup k' := by
  induction m with
  | nil =>
      show List.lookup k' [(k, v)] = none
      rw [lookup_cons_ne _ _ _ h]
      rfl
  | cons p ps ih =>
      obtain ⟨a, b⟩ := p
      by_cases hp : a = k
      · subst hp
        show List.lookup k' (if a = a then (a, v) :: ps else (a, b) :: dictSet ps a v) =
          List.lookup k' ((a, b) :: ps)
        rw [if_pos rfl, lookup_cons_ne k' (a, v) ps h, lookup_cons_ne k' (a, b) ps h]
      · simp only [dictSet, if_neg hp]
        by_cases hk' : k' = a
        · subst hk'
          rw [lookup_cons_self, lookup_cons_self]
        · rw [lookup_cons_ne _ _ _ hk', lookup_cons_ne _ _ _ hk', ih]

theorem lookup_none_of_not_mem_keys {κ ν : Type} [DecidableEq κ]
    (m : List (κ × ν)) (k : κ) (h : k ∉ m.map Prod.fst) :
    m.lookup k = none := by
  induction m with
  | nil => rfl
  | cons p ps ih =>
      simp only [List.map_cons, List.mem_cons] at h
      push_neg at h
      rw [lookup_cons_ne _ _ _ h.1, ih h.2]

theorem lookup_of_mem_of_nodup_keys {κ ν : Type} [DecidableEq κ]
    (m : List (κ × ν)) (k : κ) (v : ν) (hmem : (k, v) ∈ m)
    (hnd : (m.map Prod.fst).Nodup) : m.lookup k = some v := by
  induction m with
  | nil => cases hmem
  | cons p ps ih =>
      simp only [List.map_cons, List.nodup_cons] at hnd
      rcases List.mem_cons.mp hmem with h | h
      · subst h
        exact lookup_cons_self k v ps
      · have hk : k ≠ p.1 := by
          intro he
          exact hnd.1 (he ▸ List.mem_map_of_mem Prod.fst h)
        rw [lookup_cons_ne _ _ _ hk, ih h hnd.2]

theorem dictSet_fresh {κ ν : Type} [DecidableEq κ] (m : List (κ × ν))
    (k : κ) (v : ν) (h : m.lookup k = none) :
    dictSet m k v = m ++ [(k, v)] := by
  induction m with
  | nil => rfl
  | cons p ps ih =>
      by_cases hp : p.1 = k
      · obtain ⟨a, b⟩ := p
        subst hp
        rw [lookup_cons_self] at h
        cases h
      · simp only [dictSet, if_neg hp, List.cons_append]
        rw [lookup_cons_ne _ _ _ (Ne.symm hp)] at h
        rw [ih h]

theorem lookup_dictUpdate_not_mem {κ ν : Type} [DecidableEq κ]
    (base u : List (κ × ν)) (k : κ) (h : k ∉ u.map Prod.fst) :
    (dictUpdate base u).lookup k = base.lookup k := by
  induction u generalizing base with
  | nil => rfl
  | cons p ps ih =>
      simp only [List.map_cons, List.mem_cons] at h
      push_neg at h
      show (dictUpdate (dictSet base p.1 p.2) ps).lookup k = _
      rw [ih _ h.2, lookup_dictSet_ne _ _ _ _ h.1]

theorem lookup_dictUpdate_mem {κ ν : Type} [DecidableEq κ]
    (base u : List (κ × ν)) (k : κ) (v : ν) (hmem : (k, v) ∈ u)
    (hnd : (u.map Prod.fst).Nodup) : (dictUpdate base u).lookup k = some v := by
  induction u generalizing base with
  | nil => cases hmem
  | cons p ps ih =>
      simp only [List.map_cons, List.nodup_cons] at hnd
      rcases List.mem_cons.mp hmem with h | h
      · subst h
        show (dictUpdate (dictSet base k v) ps).lookup k = some v
        rw [lookup_dictUpdate_not_mem _ _ _ hnd.1, lookup_dictSet_self]
      · exact ih (dictSet base p.1 p.2) h hnd.2

/-! ## Shared concrete objects for witnesses -/

/-- A sample regulation chunk. -/
def sampleDoc : Document :=
  { oid := 0, pageContent := "t", metadata := [("source", MValue.vStr "S")] }

/-- A second sample chunk with a distinct identity. -/
def sampleDoc2 : Document :=
  { oid := 1, pageContent := "u", metadata := [("source", MValue.vStr "T")] }

/-- A vector store that returns one scored chunk for every request. -/
def sampleStore : RetrievalSystem :=
  { store := fun _ _ _ => [(sampleDoc, 1)] }

/-! ## Claim theorems -/

/-- C8: for every query and filter, `_keyword_search` returns exactly the
same result list as a semantic search with `k = 10`, default
`min_score = 0.0` and the same filter; the extracted keywords are never
used. -/
theorem keyword_search_is_semantic_alias (R : RetrievalSystem) (query : String)
    (filter_dict : Option (List (String × MValue))) :
    keyword_search R query filter_dict = semantic_search R query 10 0 filter_dict := by
  rfl

/-- C9: for blank (empty or whitespace-only) input text, `generate_embedding`
returns the all-zero vector of length 768 immediately, with the cache
untouched (neither read nor written) and without invoking the external
provider. -/
theorem generate_embedding_blank (embedQ : String → Vec) (failQ : String → Bool)
    (cache : List (String × Vec)) (text : String) (use_cache : Bool)
    (h : pyBlank text = true) :
    generate_embedding embedQ failQ cache text use_cache =
      { vec := zeroVec, cache := cache, providerCalled := false,
        cacheRead := false, cacheWritten := false } ∧
    zeroVec.length = 768 := by
  constructor
  · unfold generate_embedding
    rw [if_pos h]
  · rw [zeroVec, List.length_replicate]

/-- Witness for C9 at the whitespace-only text `" "`. -/
theorem generate_embedding_blank_witness :
    pyBlank " " = true ∧
    (generate_embedding (fun _ => [1]) (fun _ => false) [("x", [2])] " " true =
      { vec := zeroVec, cache := [("x", [2])], providerCalled := false,
        cacheRead := false, cacheWritten := false } ∧
    zeroVec.length = 768) :=
  ⟨by decide,
   generate_embedding_blank (fun _ => [1]) (fun _ => false) [("x", [2])] " " true (by decide)⟩

/-- C10: `clear_cache` with any `cache_type` other than `"embedding"`,
`"search"` or `"regulation"` (including `None` and misspellings) clears all
three namespaces, without an error. -/
theorem clear_cache_unrecognized (cm : CacheManager) (cache_type : Option String)
    (h1 : cache_type ≠ some "embedding") (h2 : cache_type ≠ some "search")
    (h3 : cache_type ≠ some "regulation") :
    clear_cache cm cache_type =
      { max_size := cm.max_size, embeddingCache := [], searchCache := [],
        regulationCache := [] } := by
  simp [clear_cache, h1, h2, h3]

/-- Witness for C10 at the misspelled namespace name `"embeddings"`. -/
theorem clear_cache_unrecognized_witness :
    (some "embeddings" ≠ some "embedding" ∧ some "embeddings" ≠ some "search" ∧
      some "embeddings" ≠ some "regulation") ∧
    clear_cache
      { max_size := 5, embeddingCache := [("a", [1])], searchCache := [],
        regulationCache := [("r", "x")] } (some "embeddings") =
      { max_size := 5, embeddingCache := [], searchCache := [],
        regulationCache := [] } :=
  ⟨⟨by decide, by decide, by decide⟩,
   clear_cache_unrecognized
     { max_size := 5, embeddingCache := [("a", [1])], searchCache := [],
       regulationCache := [("r", "x")] } (some "embeddings")
     (by decide) (by decide) (by decide)⟩

/-- C4: for every non-blank query, `semantic_search` requests exactly `2k`
scored candidates from the vector store, keeps those whose score is at least
`min_score`, truncates to at most `k`; and when `min_score` exceeds every
returned score the result is the empty list (no error is raised — the
function is total). -/
theorem semantic_search_spec (R : RetrievalSystem) (query : String) (k : Nat)
    (min_score : ℚ) (filter_dict : Option (List (String × MValue)))
    (h : pyBlank query = false) :
    semantic_search R query k min_score filter_dict =
      (((R.store query (2 * k) filter_dict).filter
          (fun p => min_score ≤ p.2)).map Prod.fst).take k ∧
    ((∀ p ∈ R.store query (2 * k) filter_dict, p.2 < min_score) →
      semantic_search R query k min_score filter_dict = []) := by
  constructor
  · simp [semantic_search, h, Nat.mul_comm]
  · intro hall
    simp only [semantic_search, h, Bool.false_eq_true, if_false]
    have hf : (R.store query (k * 2) filter_dict).filter
        (fun p => decide (min_score ≤ p.2)) = [] := by
      rw [List.filter_eq_nil_iff]
      intro p hp
      simpa using not_le.mpr (hall p (by rwa [Nat.mul_comm]))
    rw [hf]
    simp

/-- Witness for C4: a one-chunk store with `min_score` above the returned
score. -/
theorem semantic_search_spec_witness :
    pyBlank "q" = false ∧
    (semantic_search sampleStore "q" 3 2 none =
      (((sampleStore.store "q" (2 * 3) none).filter
          (fun p => (2 : ℚ) ≤ p.2)).map Prod.fst).take 3 ∧
    ((∀ p ∈ sampleStore.store "q" (2 * 3) none, p.2 < 2) →
      semantic_search sampleStore "q" 3 2 none = [])) :=
  ⟨by decide, semantic_search_spec sampleStore "q" 3 2 none (by decide)⟩

/-! ## Deduplication and rank-fusion membership lemmas -/

theorem dedupBySource_nodup_aux (ds : List Document) :
    ∀ seen : List MValue,
      ((dedupBySource ds seen).map Prod.fst).Nodup ∧
      ∀ x ∈ (dedupBySource ds seen).map Prod.fst, x ∉ seen := by
  induction ds with
  | nil => intro seen; exact ⟨List.nodup_nil, by intro x hx; cases hx⟩
  | cons d ds ih =>
      intro seen
      by_cases h : metaSource d ∈ seen
      · have := ih seen
        constructor
        · simpa [dedupBySource, h] using this.1
        · intro x hx
          refine this.2 x ?_
          simpa [dedupBySource, h] using hx
      · have hrec := ih (metaSource d :: seen)
        constructor
        · simp only [dedupBySource, if_neg h, List.map_cons, List.nodup_cons]
          refine ⟨fun hmem => ?_, hrec.1⟩
          exact (hrec.2 _ hmem) (List.mem_cons_self _ _)
        · intro x hx
          simp only [dedupBySource, if_neg h, List.map_cons, List.mem_cons] at hx
          rcases hx with rfl | hx
          · exact h
          · intro hxseen
            exact (hrec.2 x hx) (List.mem_cons_of_mem _ hxseen)

theorem mem_insertDesc (score : Document → ℚ) (d x : Document) :
    ∀ l : List Document, x ∈ insertDesc score d l ↔ x = d ∨ x ∈ l := by
  intro l
  induction l with
  | nil => simp [insertDesc]
  | cons a l ih =>
      by_cases h : score a ≤ score d
      · simp [insertDesc, h]
      · simp only [insertDesc, if_neg h, List.mem_cons, ih]
        tauto

theorem mem_sortDesc (score : Document → ℚ) (x : Document) :
    ∀ l : List Document, x ∈ sortDesc score l ↔ x ∈ l := by
  intro l
  induction l with
  | nil => simp [sortDesc]
  | cons a l ih =>
      show x ∈ insertDesc score a (sortDesc score l) ↔ _
      rw [mem_insertDesc]
      simp only [List.mem_cons, ih]

theorem mem_docMapAux (x : Document) :
    ∀ (l acc : List Document), x ∈ docMapAux l acc ↔ x ∈ acc ∨ x ∈ l := by
  intro l
  induction l with
  | nil => intro acc; simp [docMapAux]
  | cons d l ih =>
      intro acc
      show x ∈ docMapAux l (if d ∈ acc then acc else acc ++ [d]) ↔ _
      rw [ih]
      by_cases h : d ∈ acc
      · simp only [if_pos h, List.mem_cons]
        constructor
        · rintro (hx | hx)
          · exact Or.inl hx
          · exact Or.inr (Or.inr hx)
        · rintro (hx | rfl | hx)
          · exact Or.inl hx
          · exact Or.inl h
          · exact Or.inr hx
      · simp only [if_neg h, List.mem_append, List.mem_singleton, List.mem_cons]
        tauto

theorem mem_merge_results (s k : List Document) (sw kw : ℚ) (d : Document)
    (hd : d ∈ merge_results s k sw kw) : d ∈ s ∨ d ∈ k := by
  unfold merge_results at hd
  rw [mem_sortDesc] at hd
  rw [docMap, mem_docMapAux] at hd
  rcases hd with hd | hd
  · cases hd
  · exact List.mem_append.mp hd

/-- C1: for every vector store, document, `k` and search mode,
`retrieve_relevant_regulations` returns `(label, text)` pairs with pairwise
distinct source labels: once a source has contributed a chunk, all later
chunks of that source are dropped. -/
theorem retrieve_relevant_regulations_labels_nodup (R : RetrievalSystem)
    (user_document : String) (k : Nat) (use_hybrid : Bool) :
    ((retrieve_relevant_regulations R user_document k use_hybrid).map
      Prod.fst).Nodup := by
  unfold retrieve_relevant_regulations
  by_cases h : pyBlank user_document
  · simp [h]
  · simp only [h, Bool.false_eq_true, if_false]
    exact (dedupBySource_nodup_aux _ _).1

/-- C6: every `hybrid_search` result list has length at most `k`, and each of
its members came from the semantic candidate list (over-fetched to `k * 2`)
or from the keyword candidate list — rank fusion invents no results. -/
theorem hybrid_search_subset (R : RetrievalSystem) (query : String) (k : Nat)
    (semantic_weight keyword_weight : ℚ)
    (filter_dict : Option (List (String × MValue))) (d : Document)
    (hd : d ∈ hybrid_search R query k semantic_weight keyword_weight filter_dict) :
    (hybrid_search R query k semantic_weight keyword_weight filter_dict).length ≤ k ∧
    (d ∈ semantic_search R query (k * 2) 0 filter_dict ∨
      d ∈ keyword_search R query filter_dict) := by
  constructor
  · unfold hybrid_search
    rw [List.length_take]
    exact min_le_left _ _
  · unfold hybrid_search at hd
    exact mem_merge_results _ _ _ _ d (List.take_subset _ _ hd)

/-- Witness for C6: a one-chunk store; the single hybrid result is the
semantic candidate. -/
theorem hybrid_search_subset_witness :
    sampleDoc ∈ hybrid_search sampleStore "q" 1 (7/10) (3/10) none ∧
    ((hybrid_search sampleStore "q" 1 (7/10) (3/10) none).length ≤ 1 ∧
     (sampleDoc ∈ semantic_search sampleStore "q" (1 * 2) 0 none ∨
       sampleDoc ∈ keyword_search sampleStore "q" none)) :=
  ⟨by decide,
   hybrid_search_subset sampleStore "q" 1 (7/10) (3/10) none sampleDoc (by decide)⟩

/-- C3 counterexample: with caller metadata `{"source": "B"}` and source
label `"A"`, the produced chunk's `source` metadata is `"B"` — the caller's
value — and not the given source label `"A"` as the claim states. -/
theorem process_text_source_not_protected :
    (process_text (fun s => [s]) "hello" "A" (some [("source", MValue.vStr "B")])).map
        (fun d => d.metadata.lookup "source") = [some (MValue.vStr "B")] ∧
    (process_text (fun s => [s]) "hello" "A" (some [("source", MValue.vStr "B")])).map
        (fun d => d.metadata.lookup "source") ≠ [some (MValue.vStr "A")] := by
  constructor
  · decide
  · decide

/-- C3 (amended): caller-supplied metadata keys override every generated key
including `source`; a generated key keeps its generated value only when the
caller's metadata does not mention it — in particular `source` holds the
given source label only when the caller's metadata has no `source` key.
Stated for chunks of both `process_text` and `process_file`. -/
theorem process_metadata_caller_precedence (split : String → List String)
    (extract : String → Option String) (text file_path source_label : String)
    (metadata : List (String × MValue)) (k : String) (v : MValue)
    (d₁ d₂ : Document) (hnd : (metadata.map Prod.fst).Nodup)
    (h1 : d₁ ∈ process_text split text source_label (some metadata))
    (h2 : d₂ ∈ process_file split extract file_path (some source_label) (some metadata)) :
    ((k, v) ∈ metadata →
      d₁.metadata.lookup k = some v ∧ d₂.metadata.lookup k = some v) ∧
    ("source" ∉ metadata.map Prod.fst →
      d₁.metadata.lookup "source" = some (MValue.vStr source_label) ∧
      d₂.metadata.lookup "source" = some (MValue.vStr source_label)) := by
  by_cases hb : pyBlank text
  · simp [process_text, hb] at h1
  · rcases hxe : extract file_path with _ | t
    · rw [process_file, hxe] at h2
      cases h2
    · rw [process_file, hxe] at h2
      by_cases hbt : pyBlank t
      · simp [hbt] at h2
      · simp only [hbt, Bool.false_eq_true, if_false] at h2
        simp only [process_text, hb, Bool.false_eq_true, if_false] at h1
        rcases List.mem_map.mp h1 with ⟨p, _, hpd⟩
        rcases List.mem_map.mp h2 with ⟨q, _, hqd⟩
        have hm1 : d₁.metadata =
            dictUpdate
              [("source", MValue.vStr source_label),
               ("chunk_index", MValue.vNat p.1),
               ("total_chunks", MValue.vNat (split text).length)] metadata := by
          rw [← hpd]
          rfl
        have hm2 : d₂.metadata =
            dictUpdate
              [("source", MValue.vStr source_label),
               ("source_file", MValue.vStr file_path),
               ("chunk_index", MValue.vNat q.1),
               ("total_chunks", MValue.vNat (split t).length)] metadata := by
          rw [← hqd]
          rfl
        constructor
        · intro hkv
          rw [hm1, hm2, lookup_dictUpdate_mem _ _ _ _ hkv hnd,
            lookup_dictUpdate_mem _ _ _ _ hkv hnd]
          exact ⟨rfl, rfl⟩
        · intro hs
          rw [hm1, hm2, lookup_dictUpdate_not_mem _ _ _ hs,
            lookup_dictUpdate_not_mem _ _ _ hs]
          exact ⟨lookup_cons_self _ _ _, lookup_cons_self _ _ _⟩

/-- Witness for C3 (amended): one chunk from each of `process_text` and
`process_file`, with caller metadata overriding `source` and `chunk_index`. -/
theorem process_metadata_caller_precedence_witness :
    ([("source", MValue.vStr "B"), ("chunk_index", MValue.vNat 9)].map
        (Prod.fst (α := String) (β := MValue))).Nodup ∧
    (let m := [("source", MValue.vStr "B"), ("chunk_index", MValue.vNat 9)]
     let d₁ := (process_text (fun s => [s]) "hello" "A" (some m)).headD sampleDoc
     let d₂ := (process_file (fun s => [s]) (fun _ => some "world") "dir/f.txt"
        (some "A") (some m)).headD sampleDoc
     (("source", MValue.vStr "B") ∈ m →
       d₁.metadata.lookup "source" = some (MValue.vStr "B") ∧
       d₂.metadata.lookup "source" = some (MValue.vStr "B")) ∧
     ("source" ∉ m.map Prod.fst →
       d₁.metadata.lookup "source" = some (MValue.vStr "A") ∧
       d₂.metadata.lookup "source" = some (MValue.vStr "A"))) :=
  ⟨by decide,
   process_metadata_caller_precedence (fun s => [s]) (fun _ => some "world")
     "hello" "dir/f.txt" "A"
     [("source", MValue.vStr "B"), ("chunk_index", MValue.vNat 9)]
     "source" (MValue.vStr "B") _ _ (by decide) (by decide) (by decide)⟩

/-! ## Cache-bound lemmas -/

theorem dictSet_length_le {κ ν : Type} [DecidableEq κ] (m : List (κ × ν))
    (k : κ) (v : ν) : (dictSet m k v).length ≤ m.length + 1 := by
  induction m with
  | nil => simp [dictSet]
  | cons p ps ih =>
      by_cases h : p.1 = k
      · simp [dictSet, h]
      · simp only [dictSet, if_neg h, List.length_cons]
        omega

theorem nsSet_length {ν : Type} (max_size : Nat) (c c' : List (String × ν))
    (k : String) (v : ν) (_h1 : 1 ≤ max_size) (h5 : c.length ≤ max_size)
    (he : nsSet max_size c k v = some c') : c'.length ≤ max_size := by
  unfold nsSet at he
  by_cases hc : max_size ≤ c.length
  · rw [if_pos hc] at he
    cases c with
    | nil => cases he
    | cons p rest =>
        injection he with he
        subst he
        have := dictSet_length_le rest k v
        simp only [List.length_cons] at h5
        omega
  · rw [if_neg hc] at he
    injection he with he
    subst he
    have := dictSet_length_le c k v
    omega

theorem nsSetAll_length {ν : Type} (max_size : Nat) (ops : List (String × ν)) :
    ∀ c c' : List (String × ν), 1 ≤ max_size → c.length ≤ max_size →
      nsSetAll max_size ops c = some c' → c'.length ≤ max_size := by
  induction ops with
  | nil =>
      intro c c' _ h5 he
      injection he with he
      subst he
      exact h5
  | cons op ops ih =>
      intro c c' h1 h5 he
      show c'.length ≤ max_size
      rcases hstep : nsSet max_size c op.1 op.2 with _ | c1
      · rw [show nsSetAll max_size (op :: ops) c =
            (nsSet max_size c op.1 op.2).bind
              (fun c1 => nsSetAll max_size ops c1) from rfl, hstep] at he
        cases he
      · rw [show nsSetAll max_size (op :: ops) c =
            (nsSet max_size c op.1 op.2).bind
              (fun c1 => nsSetAll max_size ops c1) from rfl, hstep] at he
        exact ih c1 c' h1 (nsSet_length max_size c c1 op.1 op.2 h1 h5 hstep) he

theorem nsSetAll_append {ν : Type} (max_size : Nat)
    (xs ys : List (String × ν)) :
    ∀ c : List (String × ν), nsSetAll max_size (xs ++ ys) c =
      (nsSetAll max_size xs c).bind (fun c1 => nsSetAll max_size ys c1) := by
  induction xs with
  | nil => intro c; rfl
  | cons x xs ih =>
      intro c
      show (nsSet max_size c x.1 x.2).bind
          (fun c1 => nsSetAll max_size (xs ++ ys) c1) =
        ((nsSet max_size c x.1 x.2).bind
          (fun c1 => nsSetAll max_size xs c1)).bind
          (fun c1 => nsSetAll max_size ys c1)
      rcases hstep : nsSet max_size c x.1 x.2 with _ | c1
      · rfl
      · exact ih c1

theorem nsSetAll_fresh {ν : Type} (max_size : Nat) (ops : List (String × ν)) :
    ∀ c : List (String × ν), ((c ++ ops).map Prod.fst).Nodup →
      c.length + ops.length ≤ max_size →
      nsSetAll max_size ops c = some (c ++ ops) := by
  induction ops with
  | nil => intro c _ _; simp [nsSetAll]
  | cons op ops ih =>
      intro c hnd hlen
      obtain ⟨k, v⟩ := op
      have hkc : k ∉ c.map Prod.fst := by
        intro hk
        rw [List.map_append, List.nodup_append] at hnd
        exact hnd.2.2 hk (by simp)
      have hstep : nsSet max_size c k v = some (c ++ [(k, v)]) := by
        unfold nsSet
        rw [if_neg (by simp only [List.length_cons] at hlen; omega)]
        rw [dictSet_fresh c k v (lookup_none_of_not_mem_keys c k hkc)]
      show (nsSet max_size c k v).bind
          (fun c1 => nsSetAll max_size ops c1) = _
      rw [hstep]
      show nsSetAll max_size ops (c ++ [(k, v)]) = _
      rw [ih (c ++ [(k, v)])
          (by rwa [List.append_assoc, List.singleton_append])
          (by simp only [List.length_append, List.length_singleton,
                List.length_cons, List.length_nil] at hlen ⊢; omega),
        List.append_assoc, List.singleton_append]

/-- C5: starting from an empty namespace with bound `max_size ≥ 1`, inserting
`max_size + 1` entries under pairwise distinct keys (`(k₀, v₀)` first, then
`pairs`) leaves exactly the `max_size` entries `pairs`: the first-inserted
key `k₀` is evicted (its lookup fails) and every other key is still
retrievable with its value.  Moreover, for any starting namespace within the
bound and any sequence `ops` of insertions, the namespace size never exceeds
`max_size`.  `nsSet` is the shared insertion body of
`CacheManager.set_embedding` and `CacheManager.set_search_result`. -/
theorem cache_fifo_eviction {ν : Type} (max_size : Nat) (k₀ : String) (v₀ : ν)
    (pairs : List (String × ν)) (k : String) (v : ν)
    (ops c c' : List (String × ν)) (h1 : 1 ≤ max_size)
    (h2 : pairs.length = max_size)
    (h3 : (((k₀, v₀) :: pairs).map Prod.fst).Nodup) (h4 : (k, v) ∈ pairs)
    (h5 : c.length ≤ max_size) (h6 : nsSetAll max_size ops c = some c') :
    nsSetAll max_size ((k₀, v₀) :: pairs) [] = some pairs ∧
    pairs.lookup k₀ = none ∧ pairs.lookup k = some v ∧
    c'.length ≤ max_size := by
  simp only [List.map_cons, List.nodup_cons] at h3
  refine ⟨?_, ?_, ?_, ?_⟩
  · rcases List.eq_nil_or_concat pairs with rfl | ⟨front, last, hpe⟩
    · simp at h2; omega
    · obtain ⟨kl, vl⟩ := last
      rw [List.concat_eq_append] at hpe
      have hstep0 : nsSet max_size [] k₀ v₀ = some [(k₀, v₀)] := by
        unfold nsSet
        rw [if_neg (by simp; omega)]
        rfl
      show (nsSet max_size [] k₀ v₀).bind
          (fun c1 => nsSetAll max_size pairs c1) = some pairs
      rw [hstep0]
      show nsSetAll max_size pairs [(k₀, v₀)] = some pairs
      rw [hpe, nsSetAll_append]
      have hndp : (pairs.map Prod.fst).Nodup := h3.2
      rw [hpe] at hndp h2
      simp only [List.map_append, List.length_append, List.length_singleton] at hndp h2
      have hfill : nsSetAll max_size front [(k₀, v₀)] =
          some ([(k₀, v₀)] ++ front) := by
        refine nsSetAll_fresh max_size front [(k₀, v₀)] ?_ ?_
        · simp only [List.singleton_append, List.map_cons, List.nodup_cons]
          refine ⟨fun hmem => ?_, (List.nodup_append.mp hndp).1⟩
          exact h3.1 (by rw [hpe]; simpa [List.map_append] using Or.inl hmem)
        · simp only [List.length_singleton]
          omega
      rw [hfill]
      show nsSetAll max_size [(kl, vl)] ([(k₀, v₀)] ++ front) = _
      have hevict : nsSet max_size ((k₀, v₀) :: front) kl vl =
          some (dictSet front kl vl) := by
        unfold nsSet
        rw [if_pos (by simp only [List.length_cons]; omega)]
      show (nsSet max_size ((k₀, v₀) :: front) kl vl).bind
          (fun c1 => nsSetAll max_size [] c1) = _
      rw [hevict]
      show some (dictSet front kl vl) = some (front ++ [(kl, vl)])
      rw [dictSet_fresh front kl vl (lookup_none_of_not_mem_keys front kl
        (by
          rcases List.nodup_append.mp hndp with ⟨_, _, hdisj⟩
          intro hk
          exact hdisj hk (by simp)))]
  · exact lookup_none_of_not_mem_keys pairs k₀ h3.1
  · exact lookup_of_mem_of_nodup_keys pairs k v h4 h3.2
  · exact nsSetAll_length max_size ops c c' h1 h5 h6

/-- Witness for C5: bound 1, keys `"a"` then `"b"`; `"a"` is evicted, `"b"`
is retained, and an unrelated insertion sequence respects the bound. -/
theorem cache_fifo_eviction_witness :
    (1 ≤ 1 ∧ [("b", 9)].length = 1 ∧
      (([("a", (7 : Nat)), ("b", 9)].map Prod.fst).Nodup) ∧
      ("b", (9 : Nat)) ∈ [("b", 9)] ∧
      ([] : List (String × Nat)).length ≤ 1 ∧
      nsSetAll 1 [("x", (1 : Nat)), ("y", 2)] [] = some [("y", 2)]) ∧
    (nsSetAll 1 [("a", (7 : Nat)), ("b", 9)] [] = some [("b", 9)] ∧
      [("b", (9 : Nat))].lookup "a" = none ∧
      [("b", (9 : Nat))].lookup "b" = some 9 ∧
      [("y", (2 : Nat))].length ≤ 1) :=
  ⟨⟨by decide, by decide, by decide, by decide, by decide, by decide⟩,
   cache_fifo_eviction 1 "a" 7 [("b", 9)] "b" 9 [("x", 1), ("y", 2)] []
     [("y", 2)] (by decide) (by decide) (by decide) (by decide) (by decide)
     (by decide)⟩

/-! ## Rank-fusion score characterization (C2) -/

/-- Rank of a document: index of its first occurrence in a list. -/
def rankOf (d : Document) : List Document → Nat
  | [] => 0
  | x :: xs => if x = d then 0 else rankOf d xs + 1

/-- The fusion score exactly as the claim words it: for each method's list
the document appears in, a rank term (the method's weight times
`1 - rank/listLength`) plus a flat bonus equal to that method's weight. -/
def claimScore (s k : List Document) (sw kw : ℚ) (d : Document) : ℚ :=
  (if d ∈ s then sw * (1 - (rankOf d s : ℚ) / (s.length : ℚ)) + sw else 0) +
  (if d ∈ k then kw * (1 - (rankOf d k : ℚ) / (k.length : ℚ)) + kw else 0)

/-- `_merge_results` as the claim describes it: stable descending sort of the
distinct documents by `claimScore`. -/
def merge_results_claim (s k : List Document) (sw kw : ℚ) : List Document :=
  sortDesc (claimScore s k sw kw) (docMap (s ++ k))

/-- The fusion score the code actually computes: the flat bonus is granted
only by the semantic list; keyword appearances contribute the rank term
alone. -/
def amendedScore (s k : List Document) (sw kw : ℚ) (d : Document) : ℚ :=
  (if d ∈ s then sw * (1 - (rankOf d s : ℚ) / (s.length : ℚ)) + sw else 0) +
  (if d ∈ k then kw * (1 - (rankOf d k : ℚ) / (k.length : ℚ)) else 0)

theorem lookupD_addScore_self (m : List (Document × ℚ)) (d : Document) (x : ℚ) :
    lookupD (addScore m d x) d 0 = lookupD m d 0 + x := by
  unfold addScore lookupD
  rw [lookup_dictSet_self]
  rfl

theorem lookupD_addScore_ne (m : List (Document × ℚ)) (d e : Document) (x : ℚ)
    (h : e ≠ d) : lookupD (addScore m d x) e 0 = lookupD m e 0 := by
  unfold addScore lookupD
  rw [lookup_dictSet_ne _ _ _ _ h]

theorem semPass_lookup (sw : ℚ) (n : Nat) (l : List Document) :
    ∀ (i : Nat) (m : List (Document × ℚ)) (d : Document), l.Nodup →
      lookupD (semPass sw n i l m) d 0 =
        lookupD m d 0 +
          (if d ∈ l then
            sw * (1 - ((i + rankOf d l : Nat) : ℚ) / (n : ℚ)) + sw else 0) := by
  induction l with
  | nil =>
      intro i m d _
      simp [semPass]
  | cons a l ih =>
      intro i m d hnd
      rw [List.nodup_cons] at hnd
      show lookupD (semPass sw n (i + 1) l
        (addScore (addScore m a (sw * (1 - (i : ℚ) / (n : ℚ)))) a sw)) d 0 = _
      rw [ih (i + 1) _ d hnd.2]
      by_cases hda : d = a
      · subst hda
        rw [lookupD_addScore_self, lookupD_addScore_self]
        rw [if_neg hnd.1, if_pos (List.mem_cons_self d l)]
        have hr : rankOf d (d :: l) = 0 := by simp [rankOf]
        rw [hr]
        push_cast
        ring
      · rw [lookupD_addScore_ne _ _ _ _ hda, lookupD_addScore_ne _ _ _ _ hda]
        have had : ¬a = d := fun h => hda h.symm
        have hr : rankOf d (a :: l) = rankOf d l + 1 := by
          simp only [rankOf, if_neg had]
        rw [hr]
        by_cases hdl : d ∈ l
        · rw [if_pos hdl, if_pos (List.mem_cons_of_mem a hdl)]
          have harith : i + 1 + rankOf d l = i + (rankOf d l + 1) := by omega
          rw [harith]
        · have hmem : ¬d ∈ a :: l := fun hm =>
            (List.mem_cons.mp hm).elim (fun h => hda h) (fun h => hdl h)
          rw [if_neg hdl, if_neg hmem]

theorem kwPass_lookup (kw : ℚ) (n : Nat) (l : List Document) :
    ∀ (i : Nat) (m : List (Document × ℚ)) (d : Document), l.Nodup →
      lookupD (kwPass kw n i l m) d 0 =
        lookupD m d 0 +
          (if d ∈ l then
            kw * (1 - ((i + rankOf d l : Nat) : ℚ) / (n : ℚ)) else 0) := by
  induction l with
  | nil =>
      intro i m d _
      simp [kwPass]
  | cons a l ih =>
      intro i m d hnd
      rw [List.nodup_cons] at hnd
      show lookupD (kwPass kw n (i + 1) l
        (addScore m a (kw * (1 - (i : ℚ) / (n : ℚ))))) d 0 = _
      rw [ih (i + 1) _ d hnd.2]
      by_cases hda : d = a
      · subst hda
        rw [lookupD_addScore_self]
        rw [if_neg hnd.1, if_pos (List.mem_cons_self d l)]
        have hr : rankOf d (d :: l) = 0 := by simp [rankOf]
        rw [hr]
        push_cast
        ring
      · rw [lookupD_addScore_ne _ _ _ _ hda]
        have had : ¬a = d := fun h => hda h.symm
        have hr : rankOf d (a :: l) = rankOf d l + 1 := by
          simp only [rankOf, if_neg had]
        rw [hr]
        by_cases hdl : d ∈ l
        · rw [if_pos hdl, if_pos (List.mem_cons_of_mem a hdl)]
          have harith : i + 1 + rankOf d l = i + (rankOf d l + 1) := by omega
          rw [harith]
        · have hmem : ¬d ∈ a :: l := fun hm =>
            (List.mem_cons.mp hm).elim (fun h => hda h) (fun h => hdl h)
          rw [if_neg hdl, if_neg hmem]

theorem merge_scores_eq_amended (s k : List Document) (sw kw : ℚ)
    (hs : s.Nodup) (hk : k.Nodup) (d : Document) :
    lookupD (kwPass kw k.length 0 k (semPass sw s.length 0 s [])) d 0 =
      amendedScore s k sw kw d := by
  rw [kwPass_lookup kw k.length k 0 _ d hk,
    semPass_lookup sw s.length s 0 [] d hs]
  unfold amendedScore
  have h0 : lookupD ([] : List (Document × ℚ)) d 0 = 0 := rfl
  rw [h0]
  simp only [Nat.zero_add, zero_add]

theorem insertDesc_congr (f g : Document → ℚ) (d : Document) :
    ∀ l : List Document, f d = g d → (∀ x ∈ l, f x = g x) →
      insertDesc f d l = insertDesc g d l := by
  intro l
  induction l with
  | nil => intro _ _; rfl
  | cons a l ih =>
      intro hd hl
      show (if f a ≤ f d then d :: a :: l else a :: insertDesc f d l) = _
      rw [hd, hl a (List.mem_cons_self a l)]
      by_cases h : g a ≤ g d
      · rw [if_pos h]
        show d :: a :: l = if g a ≤ g d then d :: a :: l else a :: insertDesc g d l
        rw [if_pos h]
      · rw [if_neg h]
        show _ = (if g a ≤ g d then d :: a :: l else a :: insertDesc g d l)
        rw [if_neg h, ih hd (fun x hx => hl x (List.mem_cons_of_mem a hx))]

theorem sortDesc_congr (f g : Document → ℚ) :
    ∀ l : List Document, (∀ x ∈ l, f x = g x) → sortDesc f l = sortDesc g l := by
  intro l
  induction l with
  | nil => intro _; rfl
  | cons a l ih =>
      intro h
      show insertDesc f a (sortDesc f l) = insertDesc g a (sortDesc g l)
      rw [ih (fun x hx => h x (List.mem_cons_of_mem a hx))]
      exact insertDesc_congr f g a _ (h a (List.mem_cons_self a l))
        (fun x hx => h x (List.mem_cons_of_mem a ((mem_sortDesc g x l).mp hx)))

/-- C2 counterexample: with semantic results `[sampleDoc, sampleDoc2]`,
keyword results `[sampleDoc2]`, `semantic_weight = 1` and
`keyword_weight = 3/10`, the code scores `sampleDoc` at `2` and `sampleDoc2`
at `1.8` (no flat keyword bonus) and returns `[sampleDoc, sampleDoc2]`,
while the claim's formula scores `sampleDoc2` at `2.1` and predicts
`[sampleDoc2, sampleDoc]`. -/
theorem merge_results_counterexample :
    merge_results [sampleDoc, sampleDoc2] [sampleDoc2] 1 (3/10) =
      [sampleDoc, sampleDoc2] ∧
    merge_results_claim [sampleDoc, sampleDoc2] [sampleDoc2] 1 (3/10) =
      [sampleDoc2, sampleDoc] ∧
    merge_results [sampleDoc, sampleDoc2] [sampleDoc2] 1 (3/10) ≠
      merge_results_claim [sampleDoc, sampleDoc2] [sampleDoc2] 1 (3/10) := by
  have hdm : docMap ([sampleDoc, sampleDoc2] ++ [sampleDoc2]) =
      [sampleDoc, sampleDoc2] := by decide
  have hBA : amendedScore [sampleDoc, sampleDoc2] [sampleDoc2] 1 (3/10) sampleDoc2 ≤
      amendedScore [sampleDoc, sampleDoc2] [sampleDoc2] 1 (3/10) sampleDoc := by
    unfold amendedScore
    rw [if_pos (show sampleDoc2 ∈ [sampleDoc, sampleDoc2] from by decide),
      if_pos (show sampleDoc2 ∈ [sampleDoc2] from by decide),
      if_pos (show sampleDoc ∈ [sampleDoc, sampleDoc2] from by decide),
      if_neg (show ¬sampleDoc ∈ [sampleDoc2] from by decide),
      show rankOf sampleDoc2 [sampleDoc, sampleDoc2] = 1 from by decide,
      show rankOf sampleDoc2 [sampleDoc2] = 0 from by decide,
      show rankOf sampleDoc [sampleDoc, sampleDoc2] = 0 from by decide]
    simp only [List.length_cons, List.length_nil]
    push_cast
    norm_num
  have hcl : ¬(claimScore [sampleDoc, sampleDoc2] [sampleDoc2] 1 (3/10) sampleDoc2 ≤
      claimScore [sampleDoc, sampleDoc2] [sampleDoc2] 1 (3/10) sampleDoc) := by
    unfold claimScore
    rw [if_pos (show sampleDoc2 ∈ [sampleDoc, sampleDoc2] from by decide),
      if_pos (show sampleDoc2 ∈ [sampleDoc2] from by decide),
      if_pos (show sampleDoc ∈ [sampleDoc, sampleDoc2] from by decide),
      if_neg (show ¬sampleDoc ∈ [sampleDoc2] from by decide),
      show rankOf sampleDoc2 [sampleDoc, sampleDoc2] = 1 from by decide,
      show rankOf sampleDoc2 [sampleDoc2] = 0 from by decide,
      show rankOf sampleDoc [sampleDoc, sampleDoc2] = 0 from by decide]
    simp only [List.length_cons, List.length_nil]
    push_cast
    norm_num
  have h1 : merge_results [sampleDoc, sampleDoc2] [sampleDoc2] 1 (3/10) =
      [sampleDoc, sampleDoc2] := by
    show sortDesc (fun d =>
        lookupD (kwPass (3/10) [sampleDoc2].length 0 [sampleDoc2]
          (semPass 1 [sampleDoc, sampleDoc2].length 0 [sampleDoc, sampleDoc2] [])) d 0)
        (docMap ([sampleDoc, sampleDoc2] ++ [sampleDoc2])) = _
    rw [sortDesc_congr _ (amendedScore [sampleDoc, sampleDoc2] [sampleDoc2] 1 (3/10)) _
      (fun d _ => merge_scores_eq_amended [sampleDoc, sampleDoc2] [sampleDoc2] 1 (3/10)
        (by decide) (by decide) d), hdm]
    show (if amendedScore [sampleDoc, sampleDoc2] [sampleDoc2] 1 (3/10) sampleDoc2 ≤
        amendedScore [sampleDoc, sampleDoc2] [sampleDoc2] 1 (3/10) sampleDoc then
        [sampleDoc, sampleDoc2] else sampleDoc2 ::
          insertDesc (amendedScore [sampleDoc, sampleDoc2] [sampleDoc2] 1 (3/10)) sampleDoc []) =
      [sampleDoc, sampleDoc2]
    rw [if_pos hBA]
  have h2 : merge_results_claim [sampleDoc, sampleDoc2] [sampleDoc2] 1 (3/10) =
      [sampleDoc2, sampleDoc] := by
    unfold merge_results_claim
    rw [hdm]
    show (if claimScore [sampleDoc, sampleDoc2] [sampleDoc2] 1 (3/10) sampleDoc2 ≤
        claimScore [sampleDoc, sampleDoc2] [sampleDoc2] 1 (3/10) sampleDoc then
        [sampleDoc, sampleDoc2] else sampleDoc2 ::
          insertDesc (claimScore [sampleDoc, sampleDoc2] [sampleDoc2] 1 (3/10)) sampleDoc []) =
      [sampleDoc2, sampleDoc]
    rw [if_neg hcl]
    rfl
  exact ⟨h1, h2, by rw [h1, h2]; decide⟩

/-- C2 (amended): in `_merge_results` rank fusion, for duplicate-free result
lists each document's total score is: for the semantic list, the rank term
`semantic_weight * (1 - rank/listLength)` plus a flat bonus of
`semantic_weight` for appearing there; for the keyword list, only the rank
term `keyword_weight * (1 - rank/listLength)` — the keyword method grants no
flat bonus.  The fused list is the distinct documents in first-seen order,
stably sorted by that total score descending (ties keep first-seen order). -/
theorem merge_results_amended (s k : List Document) (sw kw : ℚ)
    (hs : s.Nodup) (hk : k.Nodup) :
    merge_results s k sw kw =
      sortDesc (amendedScore s k sw kw) (docMap (s ++ k)) := by
  show sortDesc (fun d =>
      lookupD (kwPass kw k.length 0 k (semPass sw s.length 0 s [])) d 0)
      (docMap (s ++ k)) = _
  exact sortDesc_congr _ _ _
    (fun d _ => merge_scores_eq_amended s k sw kw hs hk d)

/-- Witness for C2 (amended) on small duplicate-free lists. -/
theorem merge_results_amended_witness :
    ([sampleDoc, sampleDoc2].Nodup ∧ [sampleDoc2].Nodup) ∧
    merge_results [sampleDoc, sampleDoc2] [sampleDoc2] 1 (3/10) =
      sortDesc (amendedScore [sampleDoc, sampleDoc2] [sampleDoc2] 1 (3/10))
        (docMap ([sampleDoc, sampleDoc2] ++ [sampleDoc2])) :=
  ⟨⟨by decide, by decide⟩,
   merge_results_amended [sampleDoc, sampleDoc2] [sampleDoc2] 1 (3/10)
     (by decide) (by decide)⟩

/-! ## Batch-embedding lemmas (C7) -/

theorem recon_length (uidx : List Nat) :
    ∀ (rem i : Nat) (embs cached : List Vec),
      (recon uidx i rem embs cached).length = rem := by
  intro rem
  induction rem with
  | zero => intro i embs cached; rfl
  | succ rem ih =>
      intro i embs cached
      show (if i ∈ uidx then
          embs.headD zeroVec :: recon uidx (i + 1) rem embs.tail cached
        else
          cached.headD zeroVec :: recon uidx (i + 1) rem embs cached.tail).length =
        rem + 1
      by_cases h : i ∈ uidx
      · rw [if_pos h, List.length_cons, ih]
      · rw [if_neg h, List.length_cons, ih]

theorem mem_enumFrom_ge {α : Type} (l : List α) :
    ∀ (j i : Nat) (t : α), (i, t) ∈ l.enumFrom j → j ≤ i := by
  induction l with
  | nil => intro j i t h; cases h
  | cons a l ih =>
      intro j i t h
      rcases List.mem_cons.mp h with heq | hmem
      · rw [Prod.mk.injEq] at heq
        exact Nat.le_of_eq heq.1.symm
      · have := ih (j + 1) i t hmem
        omega

theorem get_of_mem_enumFrom {α : Type} (l : List α) :
    ∀ (j i : Nat) (t : α), (i, t) ∈ l.enumFrom j → l.get? (i - j) = some t := by
  induction l with
  | nil => intro j i t h; cases h
  | cons a l ih =>
      intro j i t h
      rcases List.mem_cons.mp h with heq | hmem
      · rw [Prod.mk.injEq] at heq
        obtain ⟨hij, hta⟩ := heq
        subst hij
        subst hta
        rw [Nat.sub_self]
        rfl
      · have hge := mem_enumFrom_ge l (j + 1) i t hmem
        have hrec := ih (j + 1) i t hmem
        have hs : i - j = (i - (j + 1)) + 1 := by omega
        rw [hs]
        exact hrec

theorem uidx_mem_exists (u : Bool) (cache : List (String × Vec)) :
    ∀ (l : List (Nat × String)) (j : Nat),
      j ∈ (splitCached u cache l).2.2 → ∃ s : String, (j, s) ∈ l := by
  intro l
  induction l with
  | nil => intro j h; cases h
  | cons p rest ih =>
      intro j h
      obtain ⟨jp, sp⟩ := p
      by_cases hc : (u && (cache.lookup sp).isSome) = true
      · simp only [splitCached, hc, if_true] at h
        rcases ih j h with ⟨s, hs⟩
        exact ⟨s, List.mem_cons_of_mem _ hs⟩
      · simp only [splitCached, hc, if_false] at h
        rcases List.mem_cons.mp h with heq | hmem
        · subst heq
          exact ⟨sp, List.mem_cons_self _ _⟩
        · rcases ih j hmem with ⟨s, hs⟩
          exact ⟨s, List.mem_cons_of_mem _ hs⟩

theorem recon_congr (uidx uidx' : List Nat) :
    ∀ (rem i : Nat) (embs cached : List Vec),
      (∀ j, i ≤ j → j < i + rem → (j ∈ uidx ↔ j ∈ uidx')) →
      recon uidx i rem embs cached = recon uidx' i rem embs cached := by
  intro rem
  induction rem with
  | zero => intro i embs cached _; rfl
  | succ rem ih =>
      intro i embs cached h
      show (if i ∈ uidx then
          embs.headD zeroVec :: recon uidx (i + 1) rem embs.tail cached
        else
          cached.headD zeroVec :: recon uidx (i + 1) rem embs cached.tail) =
        (if i ∈ uidx' then
          embs.headD zeroVec :: recon uidx' (i + 1) rem embs.tail cached
        else
          cached.headD zeroVec :: recon uidx' (i + 1) rem embs cached.tail)
      have hi : (i ∈ uidx) ↔ (i ∈ uidx') := h i (Nat.le_refl i) (by omega)
      have hrec1 := ih (i + 1) embs.tail cached
        (fun j h1 h2 => h j (by omega) (by omega))
      have hrec2 := ih (i + 1) embs cached.tail
        (fun j h1 h2 => h j (by omega) (by omega))
      by_cases hii : i ∈ uidx
      · rw [if_pos hii, if_pos (hi.mp hii), hrec1]
      · rw [if_neg hii, if_neg (fun hx => hii (hi.mpr hx)), hrec2]

theorem replicate_eq_map {α β : Type} (l : List α) (b : β) :
    List.replicate l.length b = l.map (fun _ => b) := by
  induction l with
  | nil => rfl
  | cons a l ih => rw [List.length_cons, List.replicate_succ, List.map_cons, ih]

theorem batchStep_fst_eq (embedD : String → Vec) (failD : List String → Bool)
    (u : Bool) (cache : List (String × Vec)) (batch : List String) :
    (batchStep embedD failD u cache batch).1 =
      (uncachedOf u cache batch).map
        (fun s => if failD (uncachedOf u cache batch) then zeroVec
          else embedD s) := by
  unfold batchStep
  by_cases he : (uncachedOf u cache batch).isEmpty = true
  · rw [if_pos he]
    have hnil : uncachedOf u cache batch = [] := by
      rwa [List.isEmpty_iff] at he
    rw [hnil]
    rfl
  · rw [if_neg he]
    by_cases hf : failD (uncachedOf u cache batch) = true
    · rw [if_pos hf]
      show List.replicate (uncachedOf u cache batch).length zeroVec = _
      rw [replicate_eq_map]
      have hfun : (fun s : String =>
          if failD (uncachedOf u cache batch) then zeroVec else embedD s) =
          (fun _ : String => zeroVec) := by
        funext s
        rw [if_pos hf]
      rw [hfun]
    · rw [if_neg hf]
      show (uncachedOf u cache batch).map embedD = _
      have hfun : (fun s : String =>
          if failD (uncachedOf u cache batch) then zeroVec else embedD s) =
          embedD := by
        funext s
        rw [if_neg hf]
      rw [hfun]

/-- The reconstruction loop reassembles a partitioned sub-batch exactly, in
order: a cached position receives its cached vector and an uncached position
the vector `g` assigns to its own text (`g` covers both the success path,
`embedD`, and the failure path, constantly `zeroVec`). -/
theorem recon_splitCached (u : Bool) (cache : List (String × Vec))
    (g : String → Vec) :
    ∀ (batch : List String) (i0 : Nat),
      recon (splitCached u cache (batch.enumFrom i0)).2.2 i0 batch.length
        ((splitCached u cache (batch.enumFrom i0)).2.1.map g)
        (splitCached u cache (batch.enumFrom i0)).1 =
      batch.map (fun s => if u && (cache.lookup s).isSome
        then (cache.lookup s).getD zeroVec else g s) := by
  intro batch
  induction batch with
  | nil => intro i0; rfl
  | cons a rest ih =>
      intro i0
      have hnotin : i0 ∉ (splitCached u cache (rest.enumFrom (i0 + 1))).2.2 := by
        intro hmem
        rcases uidx_mem_exists u cache (rest.enumFrom (i0 + 1)) i0 hmem with ⟨s, hs⟩
        have := mem_enumFrom_ge rest (i0 + 1) i0 s hs
        omega
      by_cases hc : (u && (cache.lookup a).isSome) = true
      · have hsplit : splitCached u cache ((a :: rest).enumFrom i0) =
            ((cache.lookup a).getD zeroVec ::
              (splitCached u cache (rest.enumFrom (i0 + 1))).1,
             (splitCached u cache (rest.enumFrom (i0 + 1))).2.1,
             (splitCached u cache (rest.enumFrom (i0 + 1))).2.2) := by
          show splitCached u cache ((i0, a) :: rest.enumFrom (i0 + 1)) = _
          simp only [splitCached, hc, if_true]
        rw [hsplit]
        show (if i0 ∈ (splitCached u cache (rest.enumFrom (i0 + 1))).2.2 then
            ((splitCached u cache (rest.enumFrom (i0 + 1))).2.1.map g).headD zeroVec ::
              recon (splitCached u cache (rest.enumFrom (i0 + 1))).2.2 (i0 + 1)
                rest.length
                ((splitCached u cache (rest.enumFrom (i0 + 1))).2.1.map g).tail
                ((cache.lookup a).getD zeroVec ::
                  (splitCached u cache (rest.enumFrom (i0 + 1))).1)
          else
            ((cache.lookup a).getD zeroVec ::
                (splitCached u cache (rest.enumFrom (i0 + 1))).1).headD zeroVec ::
              recon (splitCached u cache (rest.enumFrom (i0 + 1))).2.2 (i0 + 1)
                rest.length
                ((splitCached u cache (rest.enumFrom (i0 + 1))).2.1.map g)
                (splitCached u cache (rest.enumFrom (i0 + 1))).1) =
          (a :: rest).map (fun s => if u && (cache.lookup s).isSome
            then (cache.lookup s).getD zeroVec else g s)
        rw [if_neg hnotin]
        show (cache.lookup a).getD zeroVec ::
            recon (splitCached u cache (rest.enumFrom (i0 + 1))).2.2 (i0 + 1)
              rest.length
              ((splitCached u cache (rest.enumFrom (i0 + 1))).2.1.map g)
              (splitCached u cache (rest.enumFrom (i0 + 1))).1 =
          (if u && (cache.lookup a).isSome then (cache.lookup a).getD zeroVec
            else g a) ::
            rest.map (fun s => if u && (cache.lookup s).isSome
              then (cache.lookup s).getD zeroVec else g s)
        rw [if_pos hc, ih (i0 + 1)]
      · have hsplit : splitCached u cache ((a :: rest).enumFrom i0) =
            ((splitCached u cache (rest.enumFrom (i0 + 1))).1,
             a :: (splitCached u cache (rest.enumFrom (i0 + 1))).2.1,
             i0 :: (splitCached u cache (rest.enumFrom (i0 + 1))).2.2) := by
          show splitCached u cache ((i0, a) :: rest.enumFrom (i0 + 1)) = _
          simp only [splitCached, hc, Bool.false_eq_true, if_false]
        rw [hsplit]
        show (if i0 ∈ i0 :: (splitCached u cache (rest.enumFrom (i0 + 1))).2.2 then
            ((a :: (splitCached u cache (rest.enumFrom (i0 + 1))).2.1).map g).headD
                zeroVec ::
              recon (i0 :: (splitCached u cache (rest.enumFrom (i0 + 1))).2.2)
                (i0 + 1) rest.length
                ((a :: (splitCached u cache (rest.enumFrom (i0 + 1))).2.1).map g).tail
                (splitCached u cache (rest.enumFrom (i0 + 1))).1
          else
            ((splitCached u cache (rest.enumFrom (i0 + 1))).1).headD zeroVec ::
              recon (i0 :: (splitCached u cache (rest.enumFrom (i0 + 1))).2.2)
                (i0 + 1) rest.length
                ((a :: (splitCached u cache (rest.enumFrom (i0 + 1))).2.1).map g)
                ((splitCached u cache (rest.enumFrom (i0 + 1))).1).tail) =
          (a :: rest).map (fun s => if u && (cache.lookup s).isSome
            then (cache.lookup s).getD zeroVec else g s)
        rw [if_pos (List.mem_cons_self i0 _)]
        show g a ::
            recon (i0 :: (splitCached u cache (rest.enumFrom (i0 + 1))).2.2)
              (i0 + 1) rest.length
              ((splitCached u cache (rest.enumFrom (i0 + 1))).2.1.map g)
              (splitCached u cache (rest.enumFrom (i0 + 1))).1 =
          (if u && (cache.lookup a).isSome then (cache.lookup a).getD zeroVec
            else g a) ::
            rest.map (fun s => if u && (cache.lookup s).isSome
              then (cache.lookup s).getD zeroVec else g s)
        rw [if_neg hc,
          recon_congr (i0 :: (splitCached u cache (rest.enumFrom (i0 + 1))).2.2)
            (splitCached u cache (rest.enumFrom (i0 + 1))).2.2 rest.length
            (i0 + 1)
            ((splitCached u cache (rest.enumFrom (i0 + 1))).2.1.map g)
            (splitCached u cache (rest.enumFrom (i0 + 1))).1
            (fun j hj1 _ => by
              constructor
              · intro hj
                rcases List.mem_cons.mp hj with hj0 | hj
                · omega
                · exact hj
              · intro hj
                exact List.mem_cons_of_mem _ hj),
          ih (i0 + 1)]

/-- `processOneBatch` reassembles one sub-batch positionally: every position
holds its own text's vector — the cached vector when the text was cached, its
fresh embedding when `embed_documents` succeeded, and the zero vector when
the call failed. -/
theorem processOneBatch_fst_eq (embedD : String → Vec)
    (failD : List String → Bool) (u : Bool) (cache : List (String × Vec))
    (batch : List String) :
    (processOneBatch embedD failD u cache batch).1 =
      batch.map (fun s => if u && (cache.lookup s).isSome
        then (cache.lookup s).getD zeroVec
        else if failD (uncachedOf u cache batch) then zeroVec
        else embedD s) := by
  show recon (uidxOf u cache batch) 0 batch.length
      (batchStep embedD failD u cache batch).1 (cachedOf u cache batch) = _
  rw [batchStep_fst_eq]
  exact recon_splitCached u cache
    (fun s => if failD (uncachedOf u cache batch) then zeroVec else embedD s)
    batch 0

theorem processOneBatch_snd_fail (embedD : String → Vec)
    (failD : List String → Bool) (u : Bool) (cache : List (String × Vec))
    (batch : List String) (hf : failD (uncachedOf u cache batch) = true) :
    (processOneBatch embedD failD u cache batch).2 = cache := by
  show (batchStep embedD failD u cache batch).2 = cache
  unfold batchStep
  by_cases he : (uncachedOf u cache batch).isEmpty = true
  · rw [if_pos he]
  · rw [if_neg he, if_pos hf]

theorem processOneBatch_fst_length (embedD : String → Vec)
    (failD : List String → Bool) (u : Bool) (cache : List (String × Vec))
    (batch : List String) :
    (processOneBatch embedD failD u cache batch).1.length = batch.length :=
  recon_length _ batch.length 0 _ _

theorem goBatches_length (embedD : String → Vec) (failD : List String → Bool)
    (u : Bool) (bs : Nat) :
    ∀ (fuel : Nat) (ts : List String) (cache : List (String × Vec)),
      ts.length ≤ fuel → 1 ≤ bs →
      (goBatches embedD failD u bs fuel ts cache).1.length = ts.length := by
  intro fuel
  induction fuel with
  | zero =>
      intro ts cache hle _
      cases ts with
      | nil => rfl
      | cons t ts => simp at hle
  | succ fuel ih =>
      intro ts cache hle hbs
      cases ts with
      | nil => rfl
      | cons t ts =>
          show ((processOneBatch embedD failD u cache ((t :: ts).take bs)).1 ++
            (goBatches embedD failD u bs fuel ((t :: ts).drop bs)
              (processOneBatch embedD failD u cache ((t :: ts).take bs)).2).1).length =
            (t :: ts).length
          rw [List.length_append, processOneBatch_fst_length,
            ih ((t :: ts).drop bs) _
              (by
                rw [List.length_drop]
                simp only [List.length_cons] at hle ⊢
                omega) hbs,
            List.length_take, List.length_drop]
          simp only [List.length_cons]
          omega

/-- C7: for every input list, cache and `batch_size ≥ 1`,
`generate_embeddings_batch` returns a list of exactly the input's length, and
within each sub-batch every position holds the vector of the text at that
same position: its cached vector when the text was cached, its own fresh
embedding when the sub-batch's `embed_documents` call succeeds, and the
all-zero 768-length vector (`zeroVec`) when that call fails — in which case
the cache is also left unchanged; no exception propagates (the function is
total). -/
theorem generate_embeddings_batch_spec (embedD : String → Vec)
    (failD : List String → Bool) (use_cache : Bool) (batch_size : Nat)
    (texts : List String) (c cache : List (String × Vec)) (batch : List String)
    (i : Nat) (t : String) (h0 : batch_size ≠ 0) (h1 : (i, t) ∈ batch.enum) :
    (generate_embeddings_batch embedD failD use_cache batch_size texts c).map
        (fun p => p.1.length) = some texts.length ∧
    (processOneBatch embedD failD use_cache cache batch).1.get? i =
      some (if use_cache && (cache.lookup t).isSome
        then (cache.lookup t).getD zeroVec
        else if failD (uncachedOf use_cache cache batch) then zeroVec
        else embedD t) ∧
    (failD (uncachedOf use_cache cache batch) = true →
      (processOneBatch embedD failD use_cache cache batch).2 = cache) := by
  refine ⟨?_, ?_, ?_⟩
  · unfold generate_embeddings_batch
    rw [if_neg h0]
    show some ((goBatches embedD failD use_cache batch_size
        texts.length texts c).1.length) = some texts.length
    rw [goBatches_length embedD failD use_cache batch_size texts.length texts c
      (Nat.le_refl _) (Nat.one_le_iff_ne_zero.mpr h0)]
  · rw [processOneBatch_fst_eq, List.get?_map]
    have hget : batch.get? i = some t := by
      have hmem : (i, t) ∈ batch.enumFrom 0 := h1
      have := get_of_mem_enumFrom batch 0 i t hmem
      rwa [Nat.sub_zero] at this
    rw [hget]
    rfl
  · intro hf
    exact processOneBatch_snd_fail embedD failD use_cache cache batch hf

/-- Witness for C7: a one-text batch with an always-failing provider and an
empty cache; the single position receives the zero vector. -/
theorem generate_embeddings_batch_spec_witness :
    ((1 : Nat) ≠ 0 ∧ (0, "a") ∈ ["a"].enum) ∧
    ((generate_embeddings_batch (fun _ => [1]) (fun _ => true) true 1
        ["a"] []).map (fun p => p.1.length) = some 1 ∧
      (processOneBatch (fun _ => [1]) (fun _ => true) true [] ["a"]).1.get? 0 =
        some (if true && ((([] : List (String × Vec)).lookup "a").isSome)
          then (([] : List (String × Vec)).lookup "a").getD zeroVec
          else if (fun _ : List String => true) (uncachedOf true [] ["a"])
          then zeroVec
          else (fun _ : String => ([1] : Vec)) "a") ∧
      ((fun _ : List String => true) (uncachedOf true [] ["a"]) = true →
        (processOneBatch (fun _ => [1]) (fun _ => true) true [] ["a"]).2 = [])) :=
  ⟨⟨by decide, by decide⟩,
   generate_embeddings_batch_spec (fun _ => [1]) (fun _ => true) true 1 ["a"]
     [] [] ["a"] 0 "a" (by decide) (by decide)⟩

end DCA
